import Mathlib

/- Verification development for the UCI protocol front end of the
bluecatX-stockfish engine (src/uci.cpp).  The protocol handlers found in
uci.cpp are translated definition by definition; collaborators that live
outside uci.cpp (the move generator, the Position class, the option
registry storage, the search worker, the clock) are modelled from the
specification and marked as such. -/

namespace BluecatUCI

/-- Modelled from the spec: the engine's internal move representation
(types.h is not among the sources).  A move is one of the two sentinels,
a plain from/to move, or a promotion carrying the promotion piece-type
index that uci.cpp uses to index the literal " pmsnrk". -/
inductive Move where
  | MOVE_NONE : Move
  | MOVE_NULL : Move
  | normal (fromSq toSq : Nat) : Move
  | promotion (fromSq toSq ptype : Nat) : Move
deriving DecidableEq, Repr

/-- Well-formedness of a board move as produced by the external legal-move
generator: both squares on the 8x8 board, and for promotions a piece-type
index that selects one of the six promotion letters of " pmsnrk". -/
def Move.wf : Move → Bool
  | .MOVE_NONE => false
  | .MOVE_NULL => false
  | .normal f t => f < 64 && t < 64
  | .promotion f t pt => f < 64 && t < 64 && 1 ≤ pt && pt ≤ 6

/-- Modelled from the spec: file_of/rank_of of types.h; square `s` (0..63)
has file `s % 8` and rank `s / 8`.  UCI::square (uci.cpp line 368) prints
the file letter followed by the rank digit. -/
def squareChars (s : Nat) : List Char :=
  [Char.ofNat ('a'.toNat + s % 8), Char.ofNat ('1'.toNat + s / 8)]

/-- UCI::square (uci.cpp lines 368-370). -/
def square (s : Nat) : String := String.mk (squareChars s)

/-- The promotion letter `" pmsnrk"[promotion_type(m)]` (uci.cpp line 389). -/
def promoChar (pt : Nat) : Char := " pmsnrk".toList.getD pt ' '

/-- UCI::move (uci.cpp lines 375-392): "(none)" and "0000" for the two
sentinels, otherwise from-square ++ to-square in coordinate notation plus a
promotion letter when the move is a promotion. -/
def move : Move → String
  | .MOVE_NONE => "(none)"
  | .MOVE_NULL => "0000"
  | .normal f t => String.mk (squareChars f ++ squareChars t)
  | .promotion f t pt => String.mk (squareChars f ++ squareChars t ++ [promoChar pt])

/-- C `tolower` on the ASCII range, as called by UCI::to_move (line 401). -/
def toLowerChar (c : Char) : Char :=
  if 'A' ≤ c ∧ c ≤ 'Z' then Char.ofNat (c.toNat + 32) else c

/-- The in-place normalization performed by UCI::to_move (uci.cpp lines
400-401): a token of length 5 has its trailing promotion letter lowercased
before any comparison ("Junior could send promotion piece in uppercase"). -/
def normalizeTok (s : String) : String :=
  match s.data with
  | [a, b, c, d, e] => String.mk [a, b, c, d, toLowerChar e]
  | _ => s

/-- Modelled from the spec: the board state owned by the protocol loop.
position.cpp is not among the sources; per the spec a Position is set from
a FEN text plus a variant flag and is then mutated in place by each applied
move, so it is modelled as the FEN it was set from together with the list
of moves applied since, plus a toggle recording the debug `flip`. -/
structure Position where
  fen : String
  chess960 : Bool
  applied : List Move
  flipped : Bool
deriving DecidableEq, Repr

/-- Modelled from the spec: `pos.set(fen, variantFlag, &st, thread)`. -/
def Position.set (fen : String) (chess960 : Bool) : Position :=
  { fen := fen, chess960 := chess960, applied := [], flipped := false }

/-- Modelled from the spec: `pos.do_move(m, st)` applies a move in place. -/
def Position.do_move (p : Position) (m : Move) : Position :=
  { p with applied := p.applied ++ [m] }

/-- Modelled from the spec: `pos.flip()` (debug command); its board effect
is external and is recorded as a toggle. -/
def Position.flip (p : Position) : Position := { p with flipped := !p.flipped }

/-- Modelled from the spec: the external legal-move-enumeration capability
`MoveList<LEGAL>(pos)`, supplied as an oracle from positions to the list of
currently legal moves. -/
abbrev LegalOracle : Type := Position → List Move

/-- UCI::to_move (uci.cpp lines 398-408): lowercase the last character of a
length-5 token, then linearly scan the legal-move list for the first move
whose encoding equals the token; MOVE_NONE when no move matches. -/
def to_move (L : LegalOracle) (pos : Position) (str : String) : Move :=
  match (L pos).find? (fun m => normalizeTok str = move m) with
  | some m => m
  | none => Move.MOVE_NONE

/-- FEN string of the initial position (uci.cpp line 45, StartFEN). -/
def StartFEN : String := "rnsmksnr/8/pppppppp/8/8/PPPPPPPP/8/RNSKMSNR w 0 1"

/-- The move-replay loop of position() (uci.cpp lines 75-79): decode each
token against the current position, stop at the first token that decodes to
MOVE_NONE, otherwise append one state-history entry and apply the move.
The state-history sequence is modelled by its length. -/
def moves_loop (L : LegalOracle) : Position → Nat → List String → Position × Nat
  | pos, states, [] => (pos, states)
  | pos, states, tok :: rest =>
    let m := to_move L pos tok
    if m = Move.MOVE_NONE then (pos, states)
    else moves_loop L (pos.do_move m) (states + 1) rest

/-- The FEN accumulation of position() (uci.cpp line 67): each token up to
but excluding "moves" is appended followed by one space. -/
def fenJoin (toks : List String) : String :=
  String.join (toks.map (fun t => t ++ " "))

/-- position() (uci.cpp lines 53-80).  First token "startpos": take the
fixed initial FEN and consume one further token (the "moves" keyword, if
any); first token "fen": take all tokens up to "moves" as the FEN text;
any other first token: return with the position and state history
untouched.  In the two recognized cases the old state-history sequence is
dropped, a fresh one-element sequence is allocated, the Position is set
from the FEN and the variant flag, and the move list is replayed. -/
def position_cmd (L : LegalOracle) (chess960 : Bool) (pos : Position)
    (states : Nat) (toks : List String) : Position × Nat :=
  match toks with
  | [] => (pos, states)
  | token :: is1 =>
    if token = "startpos" then
      moves_loop L (Position.set StartFEN chess960) 1 (is1.drop 1)
    else if token = "fen" then
      let fen := fenJoin (is1.takeWhile (fun t => t ≠ "moves"))
      moves_loop L (Position.set fen chess960) 1
        ((is1.dropWhile (fun t => t ≠ "moves")).drop 1)
    else (pos, states)

/-- setoption() (uci.cpp lines 86-104).  The first token (the "name"
keyword) is consumed; the option name is the space-join of the tokens up to
"value"; the value is the space-join of the tokens after "value".  If the
name exists in the registry its entry is overwritten, otherwise the
diagnostic line is printed.  The external option registry is modelled as an
association list; returns the updated registry and the printed lines. -/
def setoption_cmd (opts : List (String × String)) (toks : List String) :
    List (String × String) × List String :=
  let rest := toks.drop 1
  let name := String.intercalate " " (rest.takeWhile (fun t => t ≠ "value"))
  let v := String.intercalate " " ((rest.dropWhile (fun t => t ≠ "value")).drop 1)
  if opts.any (fun p => p.1 = name) then
    (opts.map (fun p => if p.1 = name then (p.1, v) else p), [])
  else
    (opts, ["No such option: " ++ name])

/-- Search::LimitsType as populated by go() (search.h is not among the
sources; the fields are exactly the ones uci.cpp assigns, zero-initialized
as the spec states).  `infinite` is the int field set to 1 by the
`infinite` clause. -/
structure LimitsType where
  timeW : Int := 0
  timeB : Int := 0
  incW : Int := 0
  incB : Int := 0
  movestogo : Int := 0
  depth : Int := 0
  nodes : Int := 0
  movetime : Int := 0
  mate : Int := 0
  perft : Int := 0
  infinite : Int := 0
  searchmoves : List Move := []
  startTime : Int := 0
deriving DecidableEq, Repr

/-- Numeric value of a digit string. -/
def digitsVal (cs : List Char) : Nat :=
  cs.foldl (fun a c => a * 10 + (c.toNat - '0'.toNat)) 0

/-- Modelled from the spec / C++ stream semantics: extracting an integer
from a whitespace-delimited token succeeds on an optional sign followed by
digits and fails otherwise (tokens that merely start with digits are not
modelled further; the claims only concern whole numeric tokens). -/
def readInt? (s : String) : Option Int :=
  match s.data with
  | [] => none
  | '-' :: cs =>
    if cs ≠ [] ∧ cs.all Char.isDigit then some (-(digitsVal cs : Int)) else none
  | '+' :: cs =>
    if cs ≠ [] ∧ cs.all Char.isDigit then some ((digitsVal cs : Int)) else none
  | cs => if cs.all Char.isDigit then some ((digitsVal cs : Int)) else none

/-- The ten numeric clauses of go() (uci.cpp lines 124-133), tabulated:
each keyword names the limits field its following token is read into. -/
def goKeyword : String → Option (LimitsType → Int → LimitsType)
  | "wtime" => some (fun lim v => { lim with timeW := v })
  | "btime" => some (fun lim v => { lim with timeB := v })
  | "winc" => some (fun lim v => { lim with incW := v })
  | "binc" => some (fun lim v => { lim with incB := v })
  | "movestogo" => some (fun lim v => { lim with movestogo := v })
  | "depth" => some (fun lim v => { lim with depth := v })
  | "nodes" => some (fun lim v => { lim with nodes := v })
  | "movetime" => some (fun lim v => { lim with movetime := v })
  | "mate" => some (fun lim v => { lim with mate := v })
  | "perft" => some (fun lim v => { lim with perft := v })
  | _ => none

/-- The token loop of go() (uci.cpp lines 119-135).  `searchmoves` greedily
decodes every remaining token and appends it to the restricted root-move
list, after which the outer loop finds the stream exhausted and returns.
A numeric keyword extracts one integer from the stream; on extraction
failure (end of line or a non-numeric token) the C++ stream enters a fail
state, the target field is value-initialized to zero, and the loop
terminates.  `infinite` and `ponder` set flags; other tokens are ignored. -/
def go_loop (L : LegalOracle) (pos : Position) :
    List String → LimitsType → Bool → LimitsType × Bool
  | [], lim, pond => (lim, pond)
  | tok :: rest, lim, pond =>
    if tok = "searchmoves" then
      ({ lim with searchmoves :=
          lim.searchmoves ++ rest.map (fun s => to_move L pos s) }, pond)
    else
      match goKeyword tok with
      | some setf =>
        match rest with
        | [] => (setf lim 0, pond)
        | n :: rest' =>
          match readInt? n with
          | some v => go_loop L pos rest' (setf lim v) pond
          | none => (setf lim 0, pond)
      | none =>
        if tok = "infinite" then go_loop L pos rest { lim with infinite := 1 } pond
        else if tok = "ponder" then go_loop L pos rest lim true
        else go_loop L pos rest lim pond

/-- go() (uci.cpp lines 111-138): stamp the start time as early as
possible, then parse the token list into the limits and the ponder flag.
The hand-off to the search worker (Threads.start_thinking) is external. -/
def go_cmd (L : LegalOracle) (pos : Position) (t : Int) (toks : List String) :
    LimitsType × Bool :=
  go_loop L pos toks { startTime := t } false

/-- Replacing the restricted root-move list of a limits value (used to
state the searchmoves clause of the go() grammar). -/
def setSearchmoves (lim : LimitsType) (ms : List Move) : LimitsType :=
  { lim with searchmoves := ms }

/-- Modelled from the spec: one replayed bench script line, abstracted to
what the timing and node accounting of bench() observes.  A `go` line is
awaited synchronously and reports a node count while consuming some clock
time; a `ucinewgame` line clears the caches, consuming some clock time; any
other replayed line consumes some clock time.  The external clock now() is
modelled by these explicit durations. -/
inductive BenchCmd where
  | go (nodes dt : Nat)
  | ucinewgame (dt : Nat)
  | other (dt : Nat)
deriving DecidableEq, Repr

/-- The accounting state of bench(): the current clock, the recorded start
time (`elapsed` before the final subtraction), and the node total. -/
structure BenchState where
  clock : Nat
  start : Nat
  nodes : Nat
deriving DecidableEq, Repr

/-- One iteration of the replay loop of bench() (uci.cpp lines 155-170):
`go` adds the reported nodes, `ucinewgame` re-stamps the start time after
the cache clear finishes, anything else only consumes time. -/
def bench_step (s : BenchState) : BenchCmd → BenchState
  | .go n dt => { s with clock := s.clock + dt, nodes := s.nodes + n }
  | .ucinewgame dt => { clock := s.clock + dt, start := s.clock + dt, nodes := s.nodes }
  | .other dt => { s with clock := s.clock + dt }

/-- The accounting state after the replay loop of bench(), starting from
`elapsed = now()` stamped before the loop (uci.cpp line 153). -/
def bench_final (t0 : Nat) (cmds : List BenchCmd) : BenchState :=
  cmds.foldl bench_step { clock := t0, start := t0, nodes := 0 }

/-- bench() (uci.cpp lines 145-180), reported statistics: after the loop
`elapsed = now() - elapsed + 1` ("Ensure positivity to avoid a 'divide by
zero'") and the node total; returns (reported elapsed time, total nodes). -/
def bench_run (t0 : Nat) (cmds : List BenchCmd) : Nat × Nat :=
  let s := bench_final t0 cmds
  (s.clock - s.start + 1, s.nodes)

/-- Spec-side description for C6: the sum of the node counts reported by
the `go` lines of the script. -/
def goNodesSum (cmds : List BenchCmd) : Nat :=
  (cmds.map (fun c => match c with | .go n _ => n | _ => 0)).sum

/-- The clock time one bench line consumes. -/
def cmdDt : BenchCmd → Nat
  | .go _ dt => dt
  | .ucinewgame dt => dt
  | .other dt => dt

/-- Whether a bench line re-stamps the start time. -/
def isReset : BenchCmd → Bool
  | .ucinewgame _ => true
  | _ => false

/-- Spec-side description for C6: the total duration of the lines after the
last `ucinewgame` of the script (the cache clear itself excluded). -/
def durAfterLastReset (cmds : List BenchCmd) : Nat :=
  ((cmds.reverse.takeWhile (fun c => !isReset c)).map cmdDt).sum

/-- One line of engine output.  Output whose text uci.cpp itself assembles
carries the literal text; output whose text comes from external
collaborators (engine_info, the option dump, the board printer, the
evaluation trace, the bench report) or from the long in-source static
table dumps is abbreviated to a marker. -/
inductive Output where
  | line (s : String)
  | uciId
  | devMsg
  | devhelpMsg
  | psqtMsg
  | typeMsg
  | evalCfgMsg
  | clearMsg
  | board
  | evalTrace
  | benchReport
deriving DecidableEq, Repr

/-- The engine state owned by the protocol loop, restricted to what the
modelled commands touch: the live Position, the state-history length, the
option registry, and the worker flags the loop writes (Threads.stop and the
main thread's ponder flag). -/
structure EngineSt where
  pos : Position
  states : Nat
  opts : List (String × String)
  stop : Bool
  ponder : Bool
deriving DecidableEq, Repr

/-- Whitespace tokenization of one command line, as `istringstream >>`
performs it: maximal runs of non-blank characters. -/
def tokensAux : List Char → List Char → List String
  | [], cur => if cur = [] then [] else [String.mk cur.reverse]
  | c :: cs, cur =>
    if c = ' ' ∨ c = '\t' then
      if cur = [] then tokensAux cs []
      else String.mk cur.reverse :: tokensAux cs []
    else tokensAux cs (c :: cur)

/-- Token list of a command line. -/
def tokenize (s : String) : List String := tokensAux s.data []

/-- Modelled from the spec: reading an option's current value by name from
the external option registry (existence-check and read capability). -/
def optGet (opts : List (String × String)) (name : String) : Option String :=
  match opts with
  | [] => none
  | (k, v) :: rest => if k = name then some v else optGet rest name

/-- Modelled from the spec: reading a UCI option as a boolean
(`Options["UCI_Chess960"]`); the registry stores literal text. -/
def optBool (opts : List (String × String)) (name : String) : Bool :=
  (optGet opts name).getD "" = "true"

/-- One iteration of the dispatch chain of UCI::loop (uci.cpp lines
203-339) on one input line: extract the first token (the empty token when
the line is blank) and walk the else-if chain in source order.  The `go`
arm parses the limits (modelled separately by go_cmd) and hands them to the
external search worker, changing none of the modelled state; the `bench`
arm replays an externally generated script (setup_bench is not among the
sources), so its state effect is passed in as `benchEffect`. -/
def uci_step (L : LegalOracle) (benchEffect : EngineSt → EngineSt)
    (line : String) (s : EngineSt) : EngineSt × List Output :=
  let toks := tokenize line
  let token := toks.headD ""
  let rest := toks.tail
  if token = "quit" ∨ token = "stop" then ({ s with stop := true }, [])
  else if token = "ponderhit" then ({ s with ponder := false }, [])
  else if token = "uci" then (s, [Output.uciId])
  else if token = "setoption" then
    let r := setoption_cmd s.opts rest
    ({ s with opts := r.1 }, r.2.map Output.line)
  else if token = "go" then (s, [])
  else if token = "position" then
    let r := position_cmd L (optBool s.opts "UCI_Chess960") s.pos s.states rest
    ({ s with pos := r.1, states := r.2 }, [])
  else if token = "ucinewgame" then (s, [])
  else if token = "isready" then (s, [Output.line "readyok"])
  else if token = "dev" then (s, [Output.devMsg])
  else if token = "devhelp" then (s, [Output.devhelpMsg])
  else if token = "psqt" then (s, [Output.psqtMsg])
  else if token = "type" then (s, [Output.typeMsg])
  else if token = "evaluate" then (s, [Output.evalCfgMsg])
  else if token = "clear" then (s, [Output.clearMsg])
  else if token = "flip" then ({ s with pos := s.pos.flip }, [])
  else if token = "bench" then (benchEffect s, [Output.benchReport])
  else if token = "d" then (s, [Output.board])
  else if token = "eval" then (s, [Output.evalTrace])
  else (s, [Output.line ("Unknown command: " ++ line)])

/-- The loop-continuation condition of UCI::loop (uci.cpp line 340):
command-line arguments are one-shot. -/
def loop_continues (token : String) (argc : Nat) : Bool :=
  token ≠ "quit" && argc == 1

/-- Modelled from the spec: the score constants of types.h (not among the
sources).  PawnValueEg is the value printed by the in-source `type` debug
dump; the mate / infinite / max-ply constants are the engine family's
standard values, with VALUE_INFINITE = VALUE_MATE + 1 and the near-mate
threshold VALUE_MATE - MAX_PLY exactly as the spec states. -/
def VALUE_MATE : Int := 32000

/-- The infinite score sentinel, VALUE_MATE + 1. -/
def VALUE_INFINITE : Int := 32001

/-- The maximum search ply. -/
def MAX_PLY : Int := 246

/-- The endgame pawn value used as the centipawn divisor. -/
def PawnValueEg : Int := 206

/-- UCI::value (uci.cpp lines 351-363).  C++ `/` on int truncates toward
zero, which is Int.tdiv. -/
def value (v : Int) : String :=
  if |v| < VALUE_MATE - MAX_PLY then
    "cp " ++ toString (Int.tdiv (v * 100) PawnValueEg)
  else
    "mate " ++ toString (Int.tdiv (if v > 0 then VALUE_MATE - v + 1 else -VALUE_MATE - v) 2)

/-- Spec-side description for C2, following the spec's words: the longest
prefix of the token list in which every token decodes to a currently legal
move, decoded token by token against the successively updated position;
decoding stops at the first token that yields MOVE_NONE. -/
def appliedMovesSpec (L : LegalOracle) : Position → List String → List Move
  | _, [] => []
  | pos, tok :: rest =>
    let m := to_move L pos tok
    if m = Move.MOVE_NONE then []
    else m :: appliedMovesSpec L (pos.do_move m) rest

/-- Folding a list of moves into a position, one application at a time. -/
def do_moves (pos : Position) (ms : List Move) : Position :=
  ms.foldl Position.do_move pos

/-- A token list parses cleanly from a given go() parser state when running
the loop on it followed by any remainder continues with that remainder from
the state the list produced: no clause of the list entered the
stream-failure case or the `searchmoves` case, both of which swallow the
rest of the line. -/
def ParsesCleanly (L : LegalOracle) (pos : Position) (pre : List String)
    (lim : LimitsType) (pond : Bool) : Prop :=
  ∀ rest, go_loop L pos (pre ++ rest) lim pond =
    go_loop L pos rest (go_loop L pos pre lim pond).1 (go_loop L pos pre lim pond).2

/-- A concrete legal-move oracle used to instantiate the theorems: in the
start position a promotion to square a8 and the plain move e2e4 are legal;
after e2e4 the single reply e7e5 is legal; nothing else. -/
def demoOracle : LegalOracle := fun p =>
  if p.applied = [] then [Move.promotion 48 56 1, Move.normal 12 28]
  else if p.applied = [Move.normal 12 28] then [Move.normal 52 36]
  else []

/-- The freshly set start position. -/
def demoPos : Position := Position.set StartFEN false

/-- A concrete engine state for instantiating the dispatch theorems. -/
def demoSt : EngineSt :=
  { pos := demoPos, states := 1, opts := [("UCI_Chess960", "false")],
    stop := false, ponder := false }

/-- A concrete option registry for instantiating the setoption theorems. -/
def demoOpts : List (String × String) := [("UCI_Chess960", "false"), ("Threads", "1")]

theorem squareChars_length (s : Nat) : (squareChars s).length = 2 := rfl

theorem squareChars_inj {s t : Nat} (hs : s < 64) (ht : t < 64)
    (h : squareChars s = squareChars t) : s = t := by
  have hfile : ∀ a b : Fin 8,
      Char.ofNat ('a'.toNat + a.1) = Char.ofNat ('a'.toNat + b.1) → a = b := by decide
  have hrank : ∀ a b : Fin 8,
      Char.ofNat ('1'.toNat + a.1) = Char.ofNat ('1'.toNat + b.1) → a = b := by decide
  simp only [squareChars, List.cons.injEq, and_true] at h
  have h1 := hfile ⟨s % 8, Nat.mod_lt _ (by norm_num)⟩ ⟨t % 8, Nat.mod_lt _ (by norm_num)⟩ h.1
  have h2 := hrank ⟨s / 8, by omega⟩ ⟨t / 8, by omega⟩ h.2
  simp only [Fin.mk.injEq] at h1 h2
  omega

theorem promoChar_inj {p q : Nat} (hp1 : 1 ≤ p) (hp2 : p ≤ 6) (hq1 : 1 ≤ q)
    (hq2 : q ≤ 6) (h : promoChar p = promoChar q) : p = q := by
  have hl : ∀ a b : Fin 6, promoChar (a.1 + 1) = promoChar (b.1 + 1) → a = b := by decide
  have hp : p = (⟨p - 1, by omega⟩ : Fin 6).1 + 1 := by simp; omega
  have hq : q = (⟨q - 1, by omega⟩ : Fin 6).1 + 1 := by simp; omega
  rw [hp, hq] at h ⊢
  rw [hl _ _ h]

theorem move_inj {m m' : Move} (hm : m.wf = true) (hm' : m'.wf = true)
    (h : move m = move m') : m = m' := by
  cases m with
  | MOVE_NONE => simp [Move.wf] at hm
  | MOVE_NULL => simp [Move.wf] at hm
  | normal f t =>
    cases m' with
    | MOVE_NONE => simp [Move.wf] at hm'
    | MOVE_NULL => simp [Move.wf] at hm'
    | normal f' t' =>
      simp only [Move.wf, Bool.and_eq_true, decide_eq_true_eq] at hm hm'
      have hd : squareChars f ++ squareChars t = squareChars f' ++ squareChars t' :=
        congrArg String.data h
      obtain ⟨h1, h2⟩ := List.append_inj hd (by simp [squareChars_length])
      rw [squareChars_inj hm.1 hm'.1 h1, squareChars_inj hm.2 hm'.2 h2]
    | promotion f' t' pt' =>
      have hd : squareChars f ++ squareChars t =
          squareChars f' ++ squareChars t' ++ [promoChar pt'] :=
        congrArg String.data h
      have hlen := congrArg List.length hd
      simp [squareChars_length] at hlen
  | promotion f t pt =>
    cases m' with
    | MOVE_NONE => simp [Move.wf] at hm'
    | MOVE_NULL => simp [Move.wf] at hm'
    | normal f' t' =>
      have hd : squareChars f ++ squareChars t ++ [promoChar pt] =
          squareChars f' ++ squareChars t' :=
        congrArg String.data h
      have hlen := congrArg List.length hd
      simp [squareChars_length] at hlen
    | promotion f' t' pt' =>
      simp only [Move.wf, Bool.and_eq_true, decide_eq_true_eq] at hm hm'
      have hd : squareChars f ++ squareChars t ++ [promoChar pt] =
          squareChars f' ++ squareChars t' ++ [promoChar pt'] :=
        congrArg String.data h
      rw [List.append_assoc, List.append_assoc] at hd
      obtain ⟨h1, h23⟩ := List.append_inj hd (by simp [squareChars_length])
      obtain ⟨h2, h3⟩ := List.append_inj h23 (by simp [squareChars_length])
      simp only [List.cons.injEq, and_true] at h3
      rw [squareChars_inj hm.1.1.1 hm'.1.1.1 h1,
          squareChars_inj hm.1.1.2 hm'.1.1.2 h2,
          promoChar_inj hm.1.2 hm.2 hm'.1.2 hm'.2 h3]

theorem normalizeTok_move {m : Move} (h : m.wf = true) :
    normalizeTok (move m) = move m := by
  cases m with
  | MOVE_NONE => simp [Move.wf] at h
  | MOVE_NULL => rfl
  | normal f t => rfl
  | promotion f t pt =>
    simp only [Move.wf, Bool.and_eq_true, decide_eq_true_eq] at h
    have hlow : ∀ a : Fin 6,
        toLowerChar (promoChar (a.1 + 1)) = promoChar (a.1 + 1) := by decide
    have hpt : pt = (⟨pt - 1, by omega⟩ : Fin 6).1 + 1 := by simp; omega
    have hfix : toLowerChar (promoChar pt) = promoChar pt := by
      rw [hpt]; exact hlow _
    show String.mk (squareChars f ++ squareChars t ++ [toLowerChar (promoChar pt)]) = _
    rw [hfix]
    rfl

/-- C1 (amended): for every position whose legal-move list consists of
well-formed board moves, decoding the encoding of a legal move yields the
move back; and for every text whose promotion-normalized form (the trailing
character of a 5-character token lowercased, exactly the normalization
UCI::to_move itself performs) equals the encoding of no currently legal
move, to_move returns the MOVE_NONE sentinel.  The claim's original second
half, stated for texts that differ from every legal encoding before
normalization, is refuted by `to_move_uppercase_cex`. -/
theorem to_move_move_roundtrip :
    (∀ (L : LegalOracle) (p : Position), (∀ m ∈ L p, m.wf = true) →
      ∀ m ∈ L p, to_move L p (move m) = m) ∧
    (∀ (L : LegalOracle) (p : Position) (str : String),
      (∀ m ∈ L p, normalizeTok str ≠ move m) →
      to_move L p str = Move.MOVE_NONE) := by
  constructor
  · intro L p hwf m hm
    unfold to_move
    rw [normalizeTok_move (hwf m hm)]
    cases hfind : (L p).find? (fun m' => move m = move m') with
    | none =>
      rw [List.find?_eq_none] at hfind
      exact absurd (by simp) (hfind m hm)
    | some m' =>
      have h1 : move m = move m' := by simpa using List.find?_some hfind
      have h2 : m' ∈ L p := List.mem_of_find?_eq_some hfind
      simp [(move_inj (hwf m hm) (hwf m' h2) h1).symm]
  · intro L p str hne
    unfold to_move
    have : (L p).find? (fun m => normalizeTok str = move m) = none := by
      rw [List.find?_eq_none]
      intro m hm
      simp [hne m hm]
    rw [this]

/-- C1 counterexample: the token "a7a8P" differs from the encoding of every
legal move of this position (all encodings are lowercase), yet to_move does
not return MOVE_NONE: it lowercases the fifth character before comparing
and so decodes the token to the promotion move a7a8p. -/
theorem to_move_uppercase_cex :
    (∀ m ∈ demoOracle demoPos, "a7a8P" ≠ move m) ∧
    to_move demoOracle demoPos "a7a8P" = Move.promotion 48 56 1 ∧
    to_move demoOracle demoPos "a7a8P" ≠ Move.MOVE_NONE := by decide

/-- C1 witness: the amended round-trip at a concrete position, a concrete
legal move and a concrete garbage token. -/
theorem to_move_move_roundtrip_witness :
    to_move demoOracle demoPos (move (Move.normal 12 28)) = Move.normal 12 28 ∧
    to_move demoOracle demoPos "zzzz" = Move.MOVE_NONE :=
  ⟨to_move_move_roundtrip.1 demoOracle demoPos (by decide) (Move.normal 12 28) (by decide),
   to_move_move_roundtrip.2 demoOracle demoPos "zzzz" (by decide)⟩

theorem takeWhile_before_kw (kw : String) (pre post : List String)
    (h : ∀ x ∈ pre, x ≠ kw) :
    (pre ++ kw :: post).takeWhile (fun t => t ≠ kw) = pre := by
  induction pre with
  | nil => simp [List.takeWhile_cons]
  | cons a as ih =>
    have ha : a ≠ kw := h a (List.mem_cons_self a as)
    have ih' := ih (fun x hx => h x (List.mem_cons_of_mem a hx))
    simp only [List.cons_append, List.takeWhile_cons]
    simp [ha]
    simpa only [ne_eq, decide_not] using ih'

theorem dropWhile_before_kw (kw : String) (pre post : List String)
    (h : ∀ x ∈ pre, x ≠ kw) :
    (pre ++ kw :: post).dropWhile (fun t => t ≠ kw) = kw :: post := by
  induction pre with
  | nil => simp [List.dropWhile_cons]
  | cons a as ih =>
    have ha : a ≠ kw := h a (List.mem_cons_self a as)
    have ih' := ih (fun x hx => h x (List.mem_cons_of_mem a hx))
    simp only [List.cons_append, List.dropWhile_cons]
    simp [ha]
    simpa only [ne_eq, decide_not] using ih'

theorem moves_loop_eq (L : LegalOracle) (toks : List String) :
    ∀ (pos : Position) (st : Nat),
      moves_loop L pos st toks =
        (do_moves pos (appliedMovesSpec L pos toks),
         st + (appliedMovesSpec L pos toks).length) := by
  induction toks with
  | nil => intro pos st; simp [moves_loop, appliedMovesSpec, do_moves]
  | cons t rest ih =>
    intro pos st
    simp only [moves_loop, appliedMovesSpec]
    by_cases h : to_move L pos t = Move.MOVE_NONE
    · simp [h, do_moves]
    · simp only [h, if_false, ih, do_moves, List.foldl_cons, List.length_cons,
        Prod.mk.injEq]
      exact ⟨trivial, by omega⟩

theorem appliedMovesSpec_stops (L : LegalOracle) (toks : List String) :
    ∀ (p : Position), (appliedMovesSpec L p toks).length < toks.length →
      to_move L (do_moves p (appliedMovesSpec L p toks))
        ((toks.drop (appliedMovesSpec L p toks).length).headD "") = Move.MOVE_NONE := by
  induction toks with
  | nil => intro p hlt; simp [appliedMovesSpec] at hlt
  | cons t rest ih =>
    intro p hlt
    simp only [appliedMovesSpec] at hlt ⊢
    by_cases h : to_move L p t = Move.MOVE_NONE
    · simp [h, do_moves]
    · simp only [h, if_false, List.length_cons] at hlt ⊢
      have := ih (p.do_move (to_move L p t)) (by omega)
      simpa [do_moves, List.foldl_cons] using this

/-- C2 (confirmed): a `position` command built from the startpos keyword
(or the fen keyword with FEN tokens) followed by the moves keyword and a
move-token list leaves the Position equal to the initial (or given FEN)
position with exactly the longest decodable prefix of the move tokens
applied in order, and leaves the state-history length equal to 1 plus the
number of moves applied; application stops at the first token that does not
decode to a currently legal move (third conjunct), the remainder being
ignored. -/
theorem position_cmd_spec :
    (∀ (L : LegalOracle) (cs : Bool) (pos : Position) (st : Nat) (mvs : List String),
      position_cmd L cs pos st ("startpos" :: "moves" :: mvs) =
        (do_moves (Position.set StartFEN cs)
           (appliedMovesSpec L (Position.set StartFEN cs) mvs),
         1 + (appliedMovesSpec L (Position.set StartFEN cs) mvs).length)) ∧
    (∀ (L : LegalOracle) (cs : Bool) (pos : Position) (st : Nat)
        (fenToks mvs : List String), "moves" ∉ fenToks →
      position_cmd L cs pos st ("fen" :: (fenToks ++ "moves" :: mvs)) =
        (do_moves (Position.set (fenJoin fenToks) cs)
           (appliedMovesSpec L (Position.set (fenJoin fenToks) cs) mvs),
         1 + (appliedMovesSpec L (Position.set (fenJoin fenToks) cs) mvs).length)) ∧
    (∀ (L : LegalOracle) (p : Position) (toks : List String),
      (appliedMovesSpec L p toks).length < toks.length →
      to_move L (do_moves p (appliedMovesSpec L p toks))
        ((toks.drop (appliedMovesSpec L p toks).length).headD "") = Move.MOVE_NONE) := by
  refine ⟨?_, ?_, ?_⟩
  · intro L cs pos st mvs
    rw [show position_cmd L cs pos st ("startpos" :: "moves" :: mvs) =
          moves_loop L (Position.set StartFEN cs) 1 mvs from rfl, moves_loop_eq]
  · intro L cs pos st fenToks mvs h
    have h' : ∀ x ∈ fenToks, x ≠ "moves" := fun x hx hh => h (hh ▸ hx)
    rw [show position_cmd L cs pos st ("fen" :: (fenToks ++ "moves" :: mvs)) =
          moves_loop L
            (Position.set
              (fenJoin ((fenToks ++ "moves" :: mvs).takeWhile (fun t => t ≠ "moves"))) cs)
            1 (((fenToks ++ "moves" :: mvs).dropWhile (fun t => t ≠ "moves")).drop 1)
        from rfl,
      takeWhile_before_kw "moves" fenToks mvs h', dropWhile_before_kw "moves" fenToks mvs h',
      moves_loop_eq]
    rfl
  · exact fun L p toks => appliedMovesSpec_stops L toks p

/-- C2 witness: the startpos clause at a concrete oracle where the third
move token fails to decode, and the stop property at that failing token. -/
theorem position_cmd_spec_witness :
    position_cmd demoOracle false demoPos 5 ("startpos" :: "moves" :: ["e2e4", "e7e5", "x"]) =
      (do_moves (Position.set StartFEN false)
         (appliedMovesSpec demoOracle (Position.set StartFEN false) ["e2e4", "e7e5", "x"]),
       1 + (appliedMovesSpec demoOracle (Position.set StartFEN false) ["e2e4", "e7e5", "x"]).length) ∧
    to_move demoOracle
      (do_moves demoPos (appliedMovesSpec demoOracle demoPos ["e2e4", "e7e5", "x"]))
      ((["e2e4", "e7e5", "x"].drop
        (appliedMovesSpec demoOracle demoPos ["e2e4", "e7e5", "x"]).length).headD "") =
      Move.MOVE_NONE :=
  ⟨position_cmd_spec.1 demoOracle false demoPos 5 ["e2e4", "e7e5", "x"],
   position_cmd_spec.2.2 demoOracle demoPos ["e2e4", "e7e5", "x"] (by decide)⟩

/-- C3 (confirmed): a `position` command whose first token is startpos or
fen fully resets the session: its result does not depend on the incoming
Position or state history, because the handler discards the old
state-history sequence, allocates a fresh one-element sequence and re-sets
the Position before replaying the move list. -/
theorem position_cmd_resets (L : LegalOracle) (cs : Bool) (toks : List String)
    (h : toks.headD "" = "startpos" ∨ toks.headD "" = "fen") :
    ∀ (pos1 : Position) (st1 : Nat) (pos2 : Position) (st2 : Nat),
      position_cmd L cs pos1 st1 toks = position_cmd L cs pos2 st2 toks := by
  intro pos1 st1 pos2 st2
  cases toks with
  | nil => simp at h
  | cons t rest =>
    simp only [List.headD_cons] at h
    rcases h with h | h <;> subst h <;> simp [position_cmd]

/-- C3 witness: `position startpos moves e2e4 e7e5` followed by
`position startpos` is the same session state as `position startpos` alone
from the initial session. -/
theorem position_cmd_resets_witness :
    position_cmd demoOracle false
      (position_cmd demoOracle false demoPos 1 ["startpos", "moves", "e2e4", "e7e5"]).1
      (position_cmd demoOracle false demoPos 1 ["startpos", "moves", "e2e4", "e7e5"]).2
      ["startpos"] =
    position_cmd demoOracle false demoPos 1 ["startpos"] :=
  position_cmd_resets demoOracle false ["startpos"] (by decide) _ _ demoPos 1



theorem optGet_map_set (opts : List (String × String)) (nm v : String)
    (h : opts.any (fun p => p.1 = nm) = true) :
    optGet (opts.map (fun p => if p.1 = nm then (p.1, v) else p)) nm = some v := by
  induction opts with
  | nil => simp at h
  | cons a as ih =>
    obtain ⟨a1, a2⟩ := a
    simp only [List.any_cons, Bool.or_eq_true, decide_eq_true_eq] at h
    by_cases ha : a1 = nm
    · subst ha
      have hhead : (if (a1, a2).1 = a1 then ((a1, a2).1, v) else (a1, a2)) = (a1, v) := by simp
      rw [List.map_cons]
      rw [hhead]
      simp [optGet]
    · have hhead : (if (a1, a2).1 = nm then ((a1, a2).1, v) else (a1, a2)) = (a1, a2) := by
        simp [ha]
      rw [List.map_cons]
      rw [hhead]
      simp [optGet, ha, ih (h.resolve_left ha)]

theorem optGet_map_other (opts : List (String × String)) (nm v k : String)
    (hk : k ≠ nm) :
    optGet (opts.map (fun p => if p.1 = nm then (p.1, v) else p)) k = optGet opts k := by
  induction opts with
  | nil => rfl
  | cons a as ih =>
    obtain ⟨a1, a2⟩ := a
    by_cases ha : a1 = nm
    · subst ha
      have hhead : (if (a1, a2).1 = a1 then ((a1, a2).1, v) else (a1, a2)) = (a1, v) := by simp
      rw [List.map_cons]
      rw [hhead]
      have hne : a1 ≠ k := fun hh => hk (hh.symm ▸ rfl)
      simp [optGet, hne, ih]
    · have hhead : (if (a1, a2).1 = nm then ((a1, a2).1, v) else (a1, a2)) = (a1, a2) := by
        simp [ha]
      rw [List.map_cons]
      rw [hhead]
      by_cases hke : a1 = k <;> simp [optGet, hke, ih]

/-- C7 (confirmed): for a `setoption` command the parsed option name is the
space-join of the tokens after `name` up to `value` and the parsed value is
the space-join of the tokens after `value`; if the name exists in the
registry, the registry entry for it is set to the parsed value exactly and
every other entry is untouched, with no output; if the name does not exist,
the unknown-option diagnostic naming the option is emitted and the registry
is returned entirely unchanged. -/
theorem setoption_cmd_spec (opts : List (String × String)) (rest : List String) :
    (opts.any (fun p =>
        p.1 = String.intercalate " " (rest.takeWhile (fun t => t ≠ "value"))) = true →
      setoption_cmd opts ("name" :: rest) =
        (opts.map (fun p =>
          if p.1 = String.intercalate " " (rest.takeWhile (fun t => t ≠ "value")) then
            (p.1, String.intercalate " " ((rest.dropWhile (fun t => t ≠ "value")).drop 1))
          else p), []) ∧
      optGet (setoption_cmd opts ("name" :: rest)).1
          (String.intercalate " " (rest.takeWhile (fun t => t ≠ "value"))) =
        some (String.intercalate " " ((rest.dropWhile (fun t => t ≠ "value")).drop 1)) ∧
      (∀ k, k ≠ String.intercalate " " (rest.takeWhile (fun t => t ≠ "value")) →
        optGet (setoption_cmd opts ("name" :: rest)).1 k = optGet opts k)) ∧
    (opts.any (fun p =>
        p.1 = String.intercalate " " (rest.takeWhile (fun t => t ≠ "value"))) = false →
      setoption_cmd opts ("name" :: rest) =
        (opts, ["No such option: " ++
          String.intercalate " " (rest.takeWhile (fun t => t ≠ "value"))])) := by
  have hrun : setoption_cmd opts ("name" :: rest) =
      (if opts.any (fun p =>
          p.1 = String.intercalate " " (rest.takeWhile (fun t => t ≠ "value"))) then
        (opts.map (fun p =>
          if p.1 = String.intercalate " " (rest.takeWhile (fun t => t ≠ "value")) then
            (p.1, String.intercalate " " ((rest.dropWhile (fun t => t ≠ "value")).drop 1))
          else p), [])
      else
        (opts, ["No such option: " ++
          String.intercalate " " (rest.takeWhile (fun t => t ≠ "value"))])) := rfl
  constructor
  · intro h
    rw [hrun, if_pos h]
    exact ⟨rfl, optGet_map_set opts _ _ h, fun k hk => optGet_map_other opts _ _ k hk⟩
  · intro h
    rw [hrun, if_neg (by rw [h]; decide)]

/-- C7 witness: setting an existing option stores the literal text and
emits nothing; setting an unknown option emits the diagnostic and leaves
the registry unchanged. -/
theorem setoption_cmd_spec_witness :
    setoption_cmd demoOpts ["name", "UCI_Chess960", "value", "true"] =
      (demoOpts.map (fun p =>
        if p.1 = String.intercalate " "
            (["UCI_Chess960", "value", "true"].takeWhile (fun t => t ≠ "value")) then
          (p.1, String.intercalate " "
            ((["UCI_Chess960", "value", "true"].dropWhile (fun t => t ≠ "value")).drop 1))
        else p), []) ∧
    setoption_cmd demoOpts ["name", "DoesNotExist", "value", "5"] =
      (demoOpts, ["No such option: " ++
        String.intercalate " "
          (["DoesNotExist", "value", "5"].takeWhile (fun t => t ≠ "value"))]) :=
  ⟨((setoption_cmd_spec demoOpts ["UCI_Chess960", "value", "true"]).1 (by decide)).1,
   (setoption_cmd_spec demoOpts ["DoesNotExist", "value", "5"]).2 (by decide)⟩

/-- C10 (confirmed): a `setoption` command without a `value` keyword
absorbs every token after `name` into the option name and leaves the value
empty; when that name exists in the registry, its entry is overwritten with
the empty string. -/
theorem setoption_cmd_no_value (opts : List (String × String)) (rest : List String)
    (h : "value" ∉ rest) :
    (opts.any (fun p => p.1 = String.intercalate " " rest) = true →
      setoption_cmd opts ("name" :: rest) =
        (opts.map (fun p =>
          if p.1 = String.intercalate " " rest then (p.1, "") else p), []) ∧
      optGet (setoption_cmd opts ("name" :: rest)).1 (String.intercalate " " rest) =
        some "") ∧
    (opts.any (fun p => p.1 = String.intercalate " " rest) = false →
      setoption_cmd opts ("name" :: rest) =
        (opts, ["No such option: " ++ String.intercalate " " rest])) := by
  have htake : rest.takeWhile (fun t => t ≠ "value") = rest := by
    rw [List.takeWhile_eq_self_iff]
    intro x hx
    have hxv : x ≠ "value" := fun hh => h (hh ▸ hx)
    simp [hxv]
  have hdrop : rest.dropWhile (fun t => t ≠ "value") = [] := by
    rw [List.dropWhile_eq_nil_iff]
    intro x hx
    have hxv : x ≠ "value" := fun hh => h (hh ▸ hx)
    simp [hxv]
  have hval : String.intercalate " " ((rest.dropWhile (fun t => t ≠ "value")).drop 1) = "" := by
    rw [hdrop]
    rfl
  have hrun : setoption_cmd opts ("name" :: rest) =
      (if opts.any (fun p => p.1 = String.intercalate " " rest) then
        (opts.map (fun p =>
          if p.1 = String.intercalate " " rest then (p.1, "") else p), [])
      else
        (opts, ["No such option: " ++ String.intercalate " " rest])) := by
    show (if opts.any (fun p =>
        p.1 = String.intercalate " " (rest.takeWhile (fun t => t ≠ "value"))) then
        (opts.map (fun p =>
          if p.1 = String.intercalate " " (rest.takeWhile (fun t => t ≠ "value")) then
            (p.1, String.intercalate " " ((rest.dropWhile (fun t => t ≠ "value")).drop 1))
          else p), [])
      else
        (opts, ["No such option: " ++
          String.intercalate " " (rest.takeWhile (fun t => t ≠ "value"))])) = _
    rw [htake, hval]
  constructor
  · intro ha
    rw [hrun, if_pos ha]
    exact ⟨rfl, optGet_map_set opts _ "" ha⟩
  · intro ha
    rw [hrun, if_neg (by rw [ha]; decide)]

/-- C10 witness: `setoption name UCI_Chess960` (no value token) overwrites
the existing entry with the empty string. -/
theorem setoption_cmd_no_value_witness :
    setoption_cmd demoOpts ["name", "UCI_Chess960"] =
      (demoOpts.map (fun p =>
        if p.1 = String.intercalate " " ["UCI_Chess960"] then (p.1, "") else p), []) ∧
    optGet (setoption_cmd demoOpts ["name", "UCI_Chess960"]).1
      (String.intercalate " " ["UCI_Chess960"]) = some "" :=
  (setoption_cmd_no_value demoOpts ["UCI_Chess960"] (by decide)).1 (by decide)

/-- C8 (confirmed): the grammar of the go() token loop.  First conjunct:
once `searchmoves` is met after a cleanly parsed prefix, every remaining
token of the line is decoded via the codec and appended to the restricted
root-move list, and no later token is recognized as a keyword: all other
limits fields and the ponder flag are exactly those produced by the prefix
alone.  Second conjunct: each numeric keyword consumes exactly one
following numeric token into its limits field.  Third conjunct: an
unrecognized token is skipped with no effect. -/
theorem go_loop_grammar (L : LegalOracle) (pos : Position) :
    (∀ (pre rest : List String) (lim : LimitsType) (pond : Bool),
      ParsesCleanly L pos pre lim pond →
      go_loop L pos (pre ++ "searchmoves" :: rest) lim pond =
        (setSearchmoves (go_loop L pos pre lim pond).1
          ((go_loop L pos pre lim pond).1.searchmoves ++
            rest.map (fun s => to_move L pos s)),
         (go_loop L pos pre lim pond).2)) ∧
    (∀ (kw : String) (setf : LimitsType → Int → LimitsType) (n : String) (v : Int)
        (rest : List String) (lim : LimitsType) (pond : Bool),
      goKeyword kw = some setf → readInt? n = some v →
      go_loop L pos (kw :: n :: rest) lim pond = go_loop L pos rest (setf lim v) pond) ∧
    (∀ (tok : String) (rest : List String) (lim : LimitsType) (pond : Bool),
      tok ≠ "searchmoves" → goKeyword tok = none → tok ≠ "infinite" → tok ≠ "ponder" →
      go_loop L pos (tok :: rest) lim pond = go_loop L pos rest lim pond) := by
  refine ⟨?_, ?_, ?_⟩
  · intro pre rest lim pond hclean
    rw [hclean ("searchmoves" :: rest)]
    rw [show go_loop L pos ("searchmoves" :: rest) (go_loop L pos pre lim pond).1
          (go_loop L pos pre lim pond).2 =
        (setSearchmoves (go_loop L pos pre lim pond).1
          ((go_loop L pos pre lim pond).1.searchmoves ++
            rest.map (fun s => to_move L pos s)),
         (go_loop L pos pre lim pond).2) from rfl]
  · intro kw setf n v rest lim pond hkw hn
    have hks : kw ≠ "searchmoves" := by
      intro hh
      rw [hh] at hkw
      exact Option.noConfusion hkw
    rw [go_loop]
    simp only [if_neg hks, hkw, hn]
  · intro tok rest lim pond h1 h2 h3 h4
    rw [go_loop]
    simp only [if_neg h1, h2, if_neg h3, if_neg h4]

/-- C8 witness: a clean prefix `depth 3`, then `searchmoves` swallowing a
move token and a later `depth 5` that is no longer recognized; a numeric
clause consuming exactly one token; and an ignored junk token. -/
theorem go_loop_grammar_witness :
    go_loop demoOracle demoPos (["depth", "3"] ++ "searchmoves" :: ["e2e4", "depth", "5"])
        {} false =
      (setSearchmoves (go_loop demoOracle demoPos ["depth", "3"] {} false).1
        ((go_loop demoOracle demoPos ["depth", "3"] {} false).1.searchmoves ++
          ["e2e4", "depth", "5"].map (fun s => to_move demoOracle demoPos s)),
       (go_loop demoOracle demoPos ["depth", "3"] {} false).2) ∧
    go_loop demoOracle demoPos ("wtime" :: "300" :: ["infinite"]) {} false =
      go_loop demoOracle demoPos ["infinite"]
        ((fun lim v => { lim with timeW := v }) ({} : LimitsType) 300) false ∧
    go_loop demoOracle demoPos ("junk" :: ["ponder"]) {} false =
      go_loop demoOracle demoPos ["ponder"] {} false :=
  ⟨(go_loop_grammar demoOracle demoPos).1 ["depth", "3"] ["e2e4", "depth", "5"] {} false
      (fun rest => rfl),
   (go_loop_grammar demoOracle demoPos).2.1 "wtime" (fun lim v => { lim with timeW := v })
      "300" 300 ["infinite"] {} false rfl rfl,
   (go_loop_grammar demoOracle demoPos).2.2 "junk" ["ponder"] {} false (by decide) rfl
      (by decide) (by decide)⟩

/-- C9 (confirmed): every token after `searchmoves` contributes exactly one
entry to the restricted root-move list regardless of legality; a token that
does not decode to a currently legal move is appended as the MOVE_NONE
sentinel rather than skipped, so the list length equals the number of
tokens after `searchmoves`. -/
theorem go_searchmoves_appends (L : LegalOracle) (pos : Position) (t : Int)
    (rest : List String) :
    (go_cmd L pos t ("searchmoves" :: rest)).1.searchmoves =
      rest.map (fun s => to_move L pos s) ∧
    (go_cmd L pos t ("searchmoves" :: rest)).1.searchmoves.length = rest.length ∧
    (∀ (i : Nat) (h : i < rest.length),
      to_move L pos rest[i] = Move.MOVE_NONE →
      (go_cmd L pos t ("searchmoves" :: rest)).1.searchmoves[i]? =
        some Move.MOVE_NONE) := by
  have hrun : (go_cmd L pos t ("searchmoves" :: rest)).1.searchmoves =
      rest.map (fun s => to_move L pos s) := rfl
  refine ⟨hrun, ?_, ?_⟩
  · rw [hrun, List.length_map]
  · intro i h hnone
    rw [hrun, List.getElem?_map, List.getElem?_eq_getElem h]
    simp [hnone]

/-- C9 witness: an undecodable token and a decodable one each produce one
entry; the undecodable one is the MOVE_NONE sentinel in place. -/
theorem go_searchmoves_appends_witness :
    (go_cmd demoOracle demoPos 0 ("searchmoves" :: ["zz", "e2e4"])).1.searchmoves =
      ["zz", "e2e4"].map (fun s => to_move demoOracle demoPos s) ∧
    (go_cmd demoOracle demoPos 0 ("searchmoves" :: ["zz", "e2e4"])).1.searchmoves.length =
      (["zz", "e2e4"] : List String).length ∧
    (go_cmd demoOracle demoPos 0 ("searchmoves" :: ["zz", "e2e4"])).1.searchmoves[0]? =
      some Move.MOVE_NONE :=
  ⟨(go_searchmoves_appends demoOracle demoPos 0 ["zz", "e2e4"]).1,
   (go_searchmoves_appends demoOracle demoPos 0 ["zz", "e2e4"]).2.1,
   (go_searchmoves_appends demoOracle demoPos 0 ["zz", "e2e4"]).2.2 0 (by decide) (by decide)⟩

theorem tdiv_two_ofNat (k : Nat) : Int.tdiv (↑k) 2 = ↑(k / 2) := rfl

theorem tdiv_two_nonneg {a : Int} (h : 0 ≤ a) :
    Int.tdiv a 2 = ((a.toNat / 2 : Nat) : Int) := by
  obtain ⟨k, rfl⟩ : ∃ k : Nat, a = ↑k := ⟨a.toNat, (Int.toNat_of_nonneg h).symm⟩
  rw [tdiv_two_ofNat]
  simp

theorem tdiv_two_nonpos {a : Int} (h : a ≤ 0) :
    Int.tdiv a 2 = -(((-a).toNat / 2 : Nat) : Int) := by
  obtain ⟨k, rfl⟩ : ∃ k : Nat, a = -↑k := ⟨(-a).toNat, by omega⟩
  rw [Int.neg_tdiv, tdiv_two_ofNat]
  simp

/-- C4 (amended): under the precondition that the input lies strictly
between the infinite sentinels, UCI::value emits `cp <centipawns>` when the
absolute value is below the near-mate threshold and otherwise `mate <n>`
with n counted in full moves (conjuncts two and three state n in closed
form, positive scores giving ceiling((mate minus v + 1 plies)/2) and
negative scores giving the truncated negated count); the mate-in-1 value
VALUE_MATE - 1 encodes as "mate 1", but its negation encodes as "mate 0"
because C++ division truncates -1/2 toward zero — the being-mated value two
plies from mate, -(VALUE_MATE - 2), is the one that encodes as "mate -1".
The claim's original assertion that the negated value gives "mate -1" is
refuted by `value_negated_mate_cex`. -/
theorem value_spec (v : Int) (h1 : -VALUE_INFINITE < v) (h2 : v < VALUE_INFINITE) :
    (|v| < VALUE_MATE - MAX_PLY →
      value v = "cp " ++ toString (Int.tdiv (v * 100) PawnValueEg)) ∧
    (VALUE_MATE - MAX_PLY ≤ v →
      value v = "mate " ++ toString (((VALUE_MATE - v + 1).toNat / 2 : Nat) : Int)) ∧
    (v ≤ -(VALUE_MATE - MAX_PLY) →
      value v = "mate " ++ toString (-(((v + VALUE_MATE).toNat / 2 : Nat) : Int))) ∧
    value (VALUE_MATE - 1) = "mate 1" ∧
    value (-(VALUE_MATE - 1)) = "mate 0" ∧
    value (-(VALUE_MATE - 2)) = "mate -1" := by
  refine ⟨?_, ?_, ?_, by decide, by decide, by decide⟩
  · intro hlt
    rw [value, if_pos hlt]
  · intro hge
    have hC : (VALUE_MATE : Int) = 32000 ∧ (VALUE_INFINITE : Int) = 32001 ∧
        (MAX_PLY : Int) = 246 := ⟨rfl, rfl, rfl⟩
    have hpos : v > 0 := by omega
    have hnotlt : ¬(|v| < VALUE_MATE - MAX_PLY) := by
      rw [abs_of_nonneg (by omega)]
      omega
    rw [value, if_neg hnotlt, if_pos hpos,
      tdiv_two_nonneg (a := VALUE_MATE - v + 1) (by omega)]
  · intro hle
    have hC : (VALUE_MATE : Int) = 32000 ∧ (VALUE_INFINITE : Int) = 32001 ∧
        (MAX_PLY : Int) = 246 := ⟨rfl, rfl, rfl⟩
    have hneg : ¬(v > 0) := by omega
    have hnotlt : ¬(|v| < VALUE_MATE - MAX_PLY) := by
      rw [abs_of_nonpos (by omega)]
      omega
    rw [value, if_neg hnotlt, if_neg hneg,
      tdiv_two_nonpos (a := -VALUE_MATE - v) (by omega)]
    have hiden : -(-VALUE_MATE - v) = v + VALUE_MATE := by ring
    rw [hiden]

/-- C4 counterexample: the negation of the mate-in-1 score encodes as
"mate 0", not "mate -1", because C++ integer division truncates -1/2
toward zero; the value satisfies the stated precondition. -/
theorem value_negated_mate_cex :
    value (-(VALUE_MATE - 1)) = "mate 0" ∧
    value (-(VALUE_MATE - 1)) ≠ "mate -1" ∧
    -VALUE_INFINITE < -(VALUE_MATE - 1) ∧ -(VALUE_MATE - 1) < VALUE_INFINITE := by
  refine ⟨by decide, by decide, by decide, by decide⟩

/-- C4 witness: the amended statement applied at a centipawn score and at
the mate-in-1 score. -/
theorem value_spec_witness :
    value 100 = "cp " ++ toString (Int.tdiv ((100 : Int) * 100) PawnValueEg) ∧
    value (VALUE_MATE - 1) =
      "mate " ++ toString (((VALUE_MATE - (VALUE_MATE - 1) + 1).toNat / 2 : Nat) : Int) :=
  ⟨(value_spec 100 (by decide) (by decide)).1 (by decide),
   (value_spec (VALUE_MATE - 1) (by decide) (by decide)).2.1 (by decide)⟩

/-- C5 (amended): a blank input line yields the empty token, which matches
no arm of the dispatch chain; the iteration changes none of the modelled
engine state and the loop continues, but — contrary to the claim — it is
not silent: the unknown-command diagnostic echoing the raw line is
emitted.  The claim's original assertion that no output is produced is
refuted by `uci_step_empty_cex`. -/
theorem uci_step_empty (L : LegalOracle) (be : EngineSt → EngineSt) (line : String)
    (s : EngineSt) (h : tokenize line = []) :
    uci_step L be line s = (s, [Output.line ("Unknown command: " ++ line)]) ∧
    loop_continues ((tokenize line).headD "") 1 = true := by
  constructor
  · unfold uci_step
    rw [h]
    rfl
  · rw [h]
    rfl

/-- C5 counterexample: the empty line produces the unknown-command
diagnostic — output is emitted, not silence. -/
theorem uci_step_empty_cex :
    (uci_step demoOracle id "" demoSt).2 = [Output.line "Unknown command: "] ∧
    (uci_step demoOracle id "" demoSt).2 ≠ ([] : List Output) := by
  refine ⟨by decide, by decide⟩

/-- C5 witness: the amended statement at a concrete all-blank line and
engine state. -/
theorem uci_step_empty_witness :
    uci_step demoOracle id "  " demoSt =
      (demoSt, [Output.line ("Unknown command: " ++ "  ")]) ∧
    loop_continues ((tokenize "  ").headD "") 1 = true :=
  uci_step_empty demoOracle id "  " demoSt (by decide)

theorem bench_fold_nodes (cmds : List BenchCmd) :
    ∀ s : BenchState, (cmds.foldl bench_step s).nodes = s.nodes + goNodesSum cmds := by
  induction cmds with
  | nil => intro s; simp [goNodesSum]
  | cons c cs ih =>
    intro s
    rw [List.foldl_cons, ih]
    cases c <;> (simp [bench_step, goNodesSum]; try omega)

theorem bench_fold_start_le (cmds : List BenchCmd) :
    ∀ s : BenchState, s.start ≤ s.clock →
      (cmds.foldl bench_step s).start ≤ (cmds.foldl bench_step s).clock := by
  induction cmds with
  | nil => intro s hs; simpa using hs
  | cons c cs ih =>
    intro s hs
    rw [List.foldl_cons]
    refine ih _ ?_
    cases c <;> simp [bench_step] <;> omega

theorem durAfterLastReset_append_one (cmds : List BenchCmd) (c : BenchCmd) :
    durAfterLastReset (cmds ++ [c]) =
      if isReset c then 0 else cmdDt c + durAfterLastReset cmds := by
  cases c <;>
    simp [durAfterLastReset, isReset, List.reverse_append, List.takeWhile_cons, cmdDt]

theorem bench_fold_diff (cmds : List BenchCmd) :
    ∀ s : BenchState, s.start ≤ s.clock →
      (cmds.foldl bench_step s).clock - (cmds.foldl bench_step s).start =
        durAfterLastReset cmds +
          (if cmds.any isReset then 0 else s.clock - s.start) := by
  induction cmds using List.reverseRecOn with
  | nil => intro s hs; simp [durAfterLastReset]
  | append_singleton cs c ih =>
    intro s hs
    have hle := bench_fold_start_le cs s hs
    have hdiff := ih s hs
    cases c with
    | go n dt =>
      have hstep : List.foldl bench_step s (cs ++ [BenchCmd.go n dt]) =
          { clock := (List.foldl bench_step s cs).clock + dt,
            start := (List.foldl bench_step s cs).start,
            nodes := (List.foldl bench_step s cs).nodes + n } := by
        rw [List.foldl_append]
        rfl
      have hdur : durAfterLastReset (cs ++ [BenchCmd.go n dt]) =
          dt + durAfterLastReset cs := by
        rw [durAfterLastReset_append_one]
        rfl
      have hany : ((cs ++ [BenchCmd.go n dt]).any isReset) = cs.any isReset := by
        simp [isReset]
      rw [hstep, hdur, hany]
      dsimp only
      omega
    | ucinewgame dt =>
      have hstep : List.foldl bench_step s (cs ++ [BenchCmd.ucinewgame dt]) =
          { clock := (List.foldl bench_step s cs).clock + dt,
            start := (List.foldl bench_step s cs).clock + dt,
            nodes := (List.foldl bench_step s cs).nodes } := by
        rw [List.foldl_append]
        rfl
      have hdur : durAfterLastReset (cs ++ [BenchCmd.ucinewgame dt]) = 0 := by
        rw [durAfterLastReset_append_one]
        rfl
      rw [hstep, hdur]
      have hany : ((cs ++ [BenchCmd.ucinewgame dt]).any isReset) = true := by
        simp [isReset]
      rw [hany, if_pos rfl]
      dsimp only
      omega
    | other dt =>
      have hstep : List.foldl bench_step s (cs ++ [BenchCmd.other dt]) =
          { clock := (List.foldl bench_step s cs).clock + dt,
            start := (List.foldl bench_step s cs).start,
            nodes := (List.foldl bench_step s cs).nodes } := by
        rw [List.foldl_append]
        rfl
      have hdur : durAfterLastReset (cs ++ [BenchCmd.other dt]) =
          dt + durAfterLastReset cs := by
        rw [durAfterLastReset_append_one]
        rfl
      have hany : ((cs ++ [BenchCmd.other dt]).any isReset) = cs.any isReset := by
        simp [isReset]
      rw [hstep, hdur, hany]
      dsimp only
      omega

/-- C6 (amended): for every bench replay the reported elapsed time equals
(now - start) + 1 — always one MORE than the raw difference, which is not
the claimed max(now - start, 1) whenever the difference is at least 1 —
where start is the clock at completion of the last `ucinewgame` of the
script (or the loop entry when there is none), so that all time up to and
including the last cache clear is excluded from the report; and the total
node count equals the sum of the node counts reported by the synchronously
awaited `go` lines.  The claim's original max(now - start, 1) form is
refuted by `bench_run_elapsed_cex`. -/
theorem bench_run_spec (t0 : Nat) (cmds : List BenchCmd) :
    (bench_run t0 cmds).1 = durAfterLastReset cmds + 1 ∧
    (bench_run t0 cmds).2 = goNodesSum cmds := by
  constructor
  · show (bench_final t0 cmds).clock - (bench_final t0 cmds).start + 1 = _
    rw [bench_final, bench_fold_diff cmds { clock := t0, start := t0, nodes := 0 }
      (Nat.le_refl t0)]
    simp
  · show (bench_final t0 cmds).nodes = _
    rw [bench_final, bench_fold_nodes]
    simp

/-- C6 counterexample: a single awaited `go` taking 5 time units reports
elapsed time 6, while the claimed formula max(now - start, 1) gives 5. -/
theorem bench_run_elapsed_cex :
    bench_run 0 [BenchCmd.go 100 5] = (6, 100) ∧
    (bench_final 0 [BenchCmd.go 100 5]).clock -
      (bench_final 0 [BenchCmd.go 100 5]).start = 5 ∧
    (bench_run 0 [BenchCmd.go 100 5]).1 ≠
      max ((bench_final 0 [BenchCmd.go 100 5]).clock -
        (bench_final 0 [BenchCmd.go 100 5]).start) 1 := by
  refine ⟨by decide, by decide, by decide⟩

end BluecatUCI
